import Mathlib

/-!
Verification of the streaming corpus filter (`filter_text_corpus.py`).

Lines are modelled as lists of characters (`List Char`).  The input file is
the list of its lines; the `for line in infile` loop of
`filter_text_stream` becomes structural recursion over that list.  The
result records the written lines (`out`), the two counters returned by the
Python function (`total`, `removed`), and the suffix of the input that the
loop never pulled from the file iterator (`rest`), which makes the read
behaviour of the `break` statement observable.
-/

namespace CorpusFilter

/-- Characters stripped by the Python string strip method over ASCII text
(space, tab, newline, carriage return, vertical tab, form feed). -/
def isPySpace (c : Char) : Bool :=
  c == ' ' || c == '\t' || c == '\n' || c == '\r' || c == '\x0b' || c == '\x0c'

/-- Model of line 110 of the source, where each line is right-stripped of
carriage returns and line feeds: remove every trailing CR or LF. -/
def rstripCRLF (l : List Char) : List Char :=
  ((l.reverse).dropWhile (fun c => c == '\r' || c == '\n')).reverse

/-- Model of the Python string strip method: remove trailing then leading
whitespace. -/
def pyStrip (l : List Char) : List Char :=
  (((l.reverse).dropWhile isPySpace).reverse).dropWhile isPySpace

/-- Model of the emptiness test of line 117 of the source: the text is
blank when stripping all surrounding whitespace leaves nothing. -/
def blank (text : List Char) : Bool :=
  (pyStrip text).isEmpty

/-- Model of the Python startswith method: character-by-character literal
comparison starting at position 0. -/
def startswith (text pattern : List Char) : Bool :=
  match pattern, text with
  | [], _ => true
  | _ :: _, [] => false
  | p :: ps, t :: ts => p == t && startswith ts ps

/-- Function matches_boilerplate from the source: scan the patterns in
order and report whether the text starts with any of them. -/
def matches_boilerplate (text : List Char) (patterns : List (List Char)) : Bool :=
  match patterns with
  | [] => false
  | p :: rest => if startswith text p then true else matches_boilerplate text rest

/-- Lines 110-114 of the source: right-strip the line terminators, then,
when caret stripping is on and a caret occurs in the text, replace every
caret with the empty string. -/
def sanitize (strip_caret : Bool) (line : List Char) : List Char :=
  let text := rstripCRLF line
  if strip_caret && text.contains '^' then text.filter (fun c => c != '^') else text

/-- Function load_patterns from the source: keep each line that, once
stripped of surrounding whitespace, is non-empty and does not start with
the comment marker. -/
def load_patterns (lines : List (List Char)) : List (List Char) :=
  match lines with
  | [] => []
  | line :: rest =>
    let stripped := pyStrip line
    if !stripped.isEmpty && !startswith stripped ['#'] then
      stripped :: load_patterns rest
    else
      load_patterns rest

/-- Parameters of filter_text_stream that shape its behaviour (the
RunConfiguration of the spec): patterns, optional write limit, caret flag. -/
structure Config where
  patterns : List (List Char)
  limit : Option Nat
  strip_caret : Bool
deriving DecidableEq

/-- Limit check of line 107 of the source: a limit is set and the number
of written lines has reached it. -/
def limitHit (limit : Option Nat) (total : Nat) : Bool :=
  match limit with
  | none => false
  | some n => decide (n ≤ total)

/-- Observable outcome of one run of filter_text_stream: the lines
written to the output file, the returned pair of counters, and the input
lines never pulled from the file iterator. -/
structure RunResult where
  out : List (List Char)
  total : Nat
  removed : Nat
  rest : List (List Char)
deriving DecidableEq

/-- Main loop of filter_text_stream (lines 105-127 of the source): pull a
line, break when the limit is hit, sanitize, skip blank lines, count and
skip boilerplate, otherwise write the sanitized text. -/
def filterLoop (cfg : Config) (total removed : Nat) : List (List Char) → RunResult
  | [] => ⟨[], total, removed, []⟩
  | line :: restIn =>
    if limitHit cfg.limit total then ⟨[], total, removed, restIn⟩
    else
      let text := sanitize cfg.strip_caret line
      if blank text then filterLoop cfg total removed restIn
      else if matches_boilerplate text cfg.patterns then
        filterLoop cfg total (removed + 1) restIn
      else
        let r := filterLoop cfg (total + 1) removed restIn
        ⟨text :: r.out, r.total, r.removed, r.rest⟩

/-- Function filter_text_stream of the source, as a function from the
lines of the input file to the observable outcome of the run; counters
start at zero. -/
def filter_text_stream (cfg : Config) (input : List (List Char)) : RunResult :=
  filterLoop cfg 0 0 input

/-- Sanitized text on which the loop performs a write: neither blank nor
boilerplate. -/
def keepText (cfg : Config) (text : List Char) : Bool :=
  !blank text && !matches_boilerplate text cfg.patterns

/-- A line on which the loop performs a write: sanitized form neither
blank nor boilerplate (a "keep-eligible" line). -/
def keepLine (cfg : Config) (line : List Char) : Bool :=
  keepText cfg (sanitize cfg.strip_caret line)

/-- Truncation performed by the limit over a whole run started with a
zero write counter. -/
def takeLimit (limit : Option Nat) (l : List (List Char)) : List (List Char) :=
  match limit with
  | none => l
  | some n => l.take n

/-- Truncation performed by the limit over a run whose write counter
currently stands at `t`. -/
def takeLimitFrom (limit : Option Nat) (t : Nat) (l : List (List Char)) :
    List (List Char) :=
  match limit with
  | none => l
  | some n => l.take (n - t)

/-- Number of lines the run pulls from the input iterator. -/
def pulls (cfg : Config) (input : List (List Char)) : Nat :=
  input.length - (filter_text_stream cfg input).rest.length

/-- Number of keep-eligible lines of the input. -/
def countKeep (cfg : Config) (input : List (List Char)) : Nat :=
  input.countP (fun l => keepLine cfg l)

/-- Length of the shortest input segment containing `n` keep-eligible
lines: the number of pulls performed up to and including the `n`-th write. -/
def minPull (cfg : Config) (n : Nat) : List (List Char) → Nat
  | [] => 0
  | l :: ls =>
    match n with
    | 0 => 0
    | m + 1 =>
      if keepLine cfg l then 1 + minPull cfg m ls else 1 + minPull cfg (m + 1) ls

/-- Input lines that reach the sanitize step (pass the break check);
this mirrors the control flow of the loop without performing the writes. -/
def processedLines (cfg : Config) (total : Nat) : List (List Char) → List (List Char)
  | [] => []
  | line :: restIn =>
    if limitHit cfg.limit total then []
    else
      let text := sanitize cfg.strip_caret line
      if blank text then line :: processedLines cfg total restIn
      else if matches_boilerplate text cfg.patterns then
        line :: processedLines cfg total restIn
      else
        line :: processedLines cfg (total + 1) restIn

/-- Abstract filesystem for the path checks of `main`: existence test,
path resolution, and the line contents behind a path. -/
structure FileSystem where
  pathExists : String → Bool
  resolve : String → String
  readLines : String → List (List Char)

/-- Fatal path diagnostics of main (the PathError cases of the spec). -/
inductive MainError where
  | inputMissing : MainError
  | sameFile : MainError
deriving DecidableEq

/-- Lines 190-209 of the source: main checks that the input exists, then
that the resolved input and output paths differ, and only then runs
filter_text_stream on the contents of the input. -/
def runMain (fs : FileSystem) (inputPath outputPath : String) (cfg : Config) :
    Except MainError RunResult :=
  if fs.pathExists inputPath = false then Except.error MainError.inputMissing
  else if fs.resolve inputPath = fs.resolve outputPath then Except.error MainError.sameFile
  else Except.ok (filter_text_stream cfg (fs.readLines inputPath))

/-- Character list of a string literal. -/
def strC (s : String) : List Char :=
  s.data

/-! ## Step equations for the loop -/

theorem filterLoop_nil (cfg : Config) (t r : Nat) :
    filterLoop cfg t r [] = ⟨[], t, r, []⟩ :=
  rfl

theorem filterLoop_cons_break (cfg : Config) (t r : Nat) (l : List Char)
    (ls : List (List Char)) (h : limitHit cfg.limit t = true) :
    filterLoop cfg t r (l :: ls) = ⟨[], t, r, ls⟩ := by
  simp [filterLoop, h]

theorem filterLoop_cons_blank (cfg : Config) (t r : Nat) (l : List Char)
    (ls : List (List Char)) (h : limitHit cfg.limit t = false)
    (hb : blank (sanitize cfg.strip_caret l) = true) :
    filterLoop cfg t r (l :: ls) = filterLoop cfg t r ls := by
  simp [filterLoop, h, hb]

theorem filterLoop_cons_drop (cfg : Config) (t r : Nat) (l : List Char)
    (ls : List (List Char)) (h : limitHit cfg.limit t = false)
    (hb : blank (sanitize cfg.strip_caret l) = false)
    (hm : matches_boilerplate (sanitize cfg.strip_caret l) cfg.patterns = true) :
    filterLoop cfg t r (l :: ls) = filterLoop cfg t (r + 1) ls := by
  simp [filterLoop, h, hb, hm]

theorem filterLoop_cons_keep (cfg : Config) (t r : Nat) (l : List Char)
    (ls : List (List Char)) (h : limitHit cfg.limit t = false)
    (hb : blank (sanitize cfg.strip_caret l) = false)
    (hm : matches_boilerplate (sanitize cfg.strip_caret l) cfg.patterns = false) :
    filterLoop cfg t r (l :: ls) =
      ⟨sanitize cfg.strip_caret l :: (filterLoop cfg (t + 1) r ls).out,
       (filterLoop cfg (t + 1) r ls).total,
       (filterLoop cfg (t + 1) r ls).removed,
       (filterLoop cfg (t + 1) r ls).rest⟩ := by
  simp [filterLoop, h, hb, hm]

/-! ## Characterization of the string primitives -/

theorem startswith_iff (text pattern : List Char) :
    startswith text pattern = true ↔ ∃ t, pattern ++ t = text := by
  induction pattern generalizing text with
  | nil => simp [startswith]
  | cons a ps ih =>
    cases text with
    | nil => simp [startswith]
    | cons b ts =>
      simp only [startswith, Bool.and_eq_true, beq_iff_eq, List.cons_append,
        List.cons.injEq, ih ts]
      constructor
      · rintro ⟨rfl, t, rfl⟩
        exact ⟨t, rfl, rfl⟩
      · rintro ⟨t, h1, h2⟩
        exact ⟨h1, t, h2⟩

theorem matches_iff (text : List Char) (patterns : List (List Char)) :
    matches_boilerplate text patterns = true ↔
      ∃ p ∈ patterns, startswith text p = true := by
  induction patterns with
  | nil => simp [matches_boilerplate]
  | cons q qs ih =>
    simp only [matches_boilerplate]
    by_cases h : startswith text q = true
    · simp only [if_pos h, true_iff]
      exact ⟨q, List.mem_cons_self q qs, h⟩
    · simp only [if_neg h, ih]
      constructor
      · rintro ⟨p, hp, hs⟩
        exact ⟨p, List.mem_cons_of_mem q hp, hs⟩
      · rintro ⟨p, hp, hs⟩
        rcases List.mem_cons.mp hp with rfl | hp2
        · exact absurd hs h
        · exact ⟨p, hp2, hs⟩

theorem rev_dropWhile_decomp (p : Char → Bool) (l : List Char) :
    ∃ t, (l.reverse.dropWhile p).reverse ++ t = l ∧ ∀ c ∈ t, p c = true := by
  refine ⟨(l.reverse.takeWhile p).reverse, ?_, ?_⟩
  · rw [← List.reverse_append, List.takeWhile_append_dropWhile, List.reverse_reverse]
  · intro c hc
    exact List.mem_takeWhile_imp (List.mem_reverse.mp hc)

theorem rstripCRLF_decomp (l : List Char) :
    ∃ t, rstripCRLF l ++ t = l ∧ ∀ c ∈ t, (c == '\r' || c == '\n') = true :=
  rev_dropWhile_decomp _ l

theorem mem_rstripCRLF {l : List Char} {c : Char} (h : c ∈ rstripCRLF l) :
    c ∈ l := by
  obtain ⟨t, ht, -⟩ := rstripCRLF_decomp l
  rw [← ht]
  exact List.mem_append_left t h

theorem blank_iff (l : List Char) :
    blank l = true ↔ ∀ c ∈ l, isPySpace c = true := by
  unfold blank pyStrip
  rw [List.isEmpty_iff, List.dropWhile_eq_nil_iff]
  obtain ⟨t, ht, htws⟩ := rev_dropWhile_decomp isPySpace l
  constructor
  · intro h c hc
    rw [← ht] at hc
    rcases List.mem_append.mp hc with h1 | h2
    · exact h c h1
    · exact htws c h2
  · intro h c hc
    exact h c (by rw [← ht]; exact List.mem_append_left t hc)

theorem contains_iff (l : List Char) (a : Char) :
    l.contains a = true ↔ a ∈ l := by
  simp

theorem sanitize_true_eq (l : List Char) :
    sanitize true l = (rstripCRLF l).filter (fun c => c != '^') := by
  show (if true && (rstripCRLF l).contains '^' then
          (rstripCRLF l).filter (fun c => c != '^')
        else rstripCRLF l) = (rstripCRLF l).filter (fun c => c != '^')
  rw [Bool.true_and]
  by_cases h : (rstripCRLF l).contains '^' = true
  · rw [if_pos h]
  · rw [if_neg h]
    have hmem : ('^' : Char) ∉ rstripCRLF l := fun hm => h ((contains_iff _ _).mpr hm)
    exact (List.filter_eq_self.mpr fun a ha => by
      have hne : a ≠ '^' := fun he => hmem (he ▸ ha)
      simpa using hne).symm

theorem sanitize_false_eq (l : List Char) : sanitize false l = rstripCRLF l := by
  simp [sanitize]

theorem sanitize_no_caret (l : List Char) : ('^' : Char) ∉ sanitize true l := by
  rw [sanitize_true_eq]
  intro h
  have h2 := (List.mem_filter.mp h).2
  simp at h2

/-! ## Shape of the written output -/

theorem limitHit_false_lt {n t : Nat} (h : limitHit (some n) t = false) : t < n := by
  have h2 : ¬ n ≤ t := by simpa [limitHit] using h
  omega

theorem limitHit_true_le {n t : Nat} (h : limitHit (some n) t = true) : n ≤ t := by
  simpa [limitHit] using h

theorem filterLoop_out (cfg : Config) :
    ∀ (input : List (List Char)) (t r : Nat),
      (filterLoop cfg t r input).out =
        takeLimitFrom cfg.limit t
          ((input.map (sanitize cfg.strip_caret)).filter (keepText cfg)) := by
  intro input
  induction input with
  | nil =>
    intro t r
    cases hl : cfg.limit <;> simp [filterLoop, takeLimitFrom, hl]
  | cons l ls ih =>
    intro t r
    cases hlim : limitHit cfg.limit t with
    | true =>
      rw [filterLoop_cons_break cfg t r l ls hlim]
      cases hl : cfg.limit with
      | none => rw [hl] at hlim; simp [limitHit] at hlim
      | some n =>
        rw [hl] at hlim
        have hle : n ≤ t := limitHit_true_le hlim
        simp [takeLimitFrom, Nat.sub_eq_zero_of_le hle]
    | false =>
      cases hb : blank (sanitize cfg.strip_caret l) with
      | true =>
        rw [filterLoop_cons_blank cfg t r l ls hlim hb, ih t r]
        have hk : keepText cfg (sanitize cfg.strip_caret l) = false := by
          simp [keepText, hb]
        simp [List.filter_cons, hk]
      | false =>
        cases hm : matches_boilerplate (sanitize cfg.strip_caret l) cfg.patterns with
        | true =>
          rw [filterLoop_cons_drop cfg t r l ls hlim hb hm, ih t (r + 1)]
          have hk : keepText cfg (sanitize cfg.strip_caret l) = false := by
            simp [keepText, hb, hm]
          simp [List.filter_cons, hk]
        | false =>
          rw [filterLoop_cons_keep cfg t r l ls hlim hb hm]
          have hk : keepText cfg (sanitize cfg.strip_caret l) = true := by
            simp [keepText, hb, hm]
          cases hl : cfg.limit with
          | none =>
            simp only [takeLimitFrom, List.map_cons, List.filter_cons, hk, if_pos]
            rw [ih (t + 1) r, hl]
            simp [takeLimitFrom]
          | some n =>
            rw [hl] at hlim
            have htn : t < n := limitHit_false_lt hlim
            simp only [takeLimitFrom, List.map_cons, List.filter_cons, hk, if_pos]
            rw [ih (t + 1) r, hl]
            simp only [takeLimitFrom]
            rw [show n - t = (n - (t + 1)) + 1 by omega, List.take_succ_cons]

theorem filterLoop_total (cfg : Config) :
    ∀ (input : List (List Char)) (t r : Nat),
      (filterLoop cfg t r input).total = t + (filterLoop cfg t r input).out.length := by
  intro input
  induction input with
  | nil => intro t r; simp [filterLoop]
  | cons l ls ih =>
    intro t r
    cases hlim : limitHit cfg.limit t with
    | true => simp [filterLoop_cons_break cfg t r l ls hlim]
    | false =>
      cases hb : blank (sanitize cfg.strip_caret l) with
      | true => rw [filterLoop_cons_blank cfg t r l ls hlim hb]; exact ih t r
      | false =>
        cases hm : matches_boilerplate (sanitize cfg.strip_caret l) cfg.patterns with
        | true => rw [filterLoop_cons_drop cfg t r l ls hlim hb hm]; exact ih t (r + 1)
        | false =>
          rw [filterLoop_cons_keep cfg t r l ls hlim hb hm]
          simp only [List.length_cons]
          rw [ih (t + 1) r]
          omega

theorem filterLoop_rest_le (cfg : Config) :
    ∀ (input : List (List Char)) (t r : Nat),
      (filterLoop cfg t r input).rest.length ≤ input.length := by
  intro input
  induction input with
  | nil => intro t r; simp [filterLoop]
  | cons l ls ih =>
    intro t r
    cases hlim : limitHit cfg.limit t with
    | true =>
      rw [filterLoop_cons_break cfg t r l ls hlim]
      simp
    | false =>
      cases hb : blank (sanitize cfg.strip_caret l) with
      | true =>
        rw [filterLoop_cons_blank cfg t r l ls hlim hb]
        exact le_trans (ih t r) (by simp)
      | false =>
        cases hm : matches_boilerplate (sanitize cfg.strip_caret l) cfg.patterns with
        | true =>
          rw [filterLoop_cons_drop cfg t r l ls hlim hb hm]
          exact le_trans (ih t (r + 1)) (by simp)
        | false =>
          rw [filterLoop_cons_keep cfg t r l ls hlim hb hm]
          exact le_trans (ih (t + 1) r) (by simp)

theorem takeLimitFrom_sublist (limit : Option Nat) (t : Nat) (l : List (List Char)) :
    List.Sublist (takeLimitFrom limit t l) l := by
  cases limit with
  | none => exact List.Sublist.refl l
  | some n => exact List.take_sublist (n - t) l

theorem out_mem (cfg : Config) (input : List (List Char)) (l : List Char)
    (h : l ∈ (filter_text_stream cfg input).out) :
    (∃ raw ∈ input, l = sanitize cfg.strip_caret raw) ∧
      blank l = false ∧ matches_boilerplate l cfg.patterns = false := by
  rw [filter_text_stream, filterLoop_out cfg input 0 0] at h
  have h2 := (takeLimitFrom_sublist cfg.limit 0 _).subset h
  have h3 := List.mem_filter.mp h2
  have h4 : keepText cfg l = true := h3.2
  have h5 : blank l = false ∧ matches_boilerplate l cfg.patterns = false := by
    have := h4
    unfold keepText at this
    constructor
    · cases hb : blank l with
      | true => rw [hb] at this; simp at this
      | false => rfl
    · cases hm : matches_boilerplate l cfg.patterns with
      | true => rw [hm] at this; simp at this
      | false => rfl
  obtain ⟨raw, hraw, hsan⟩ := List.mem_map.mp h3.1
  exact ⟨⟨raw, hraw, hsan.symm⟩, h5⟩

/-! ## C1: order preservation -/

/-- C1 (counterexample): with caret stripping on, the line a^b is
keep-eligible but the raw line itself is never written; the written text
is ab, so the sequence of written lines is not a sub-sequence of the raw
input lines. -/
theorem c1_raw_subsequence_counterexample :
    (filter_text_stream (Config.mk [] none true) [strC "a^b"]).out = [strC "ab"] ∧
    strC "a^b" ∉ (filter_text_stream (Config.mk [] none true) [strC "a^b"]).out ∧
    ¬ List.Sublist (filter_text_stream (Config.mk [] none true) [strC "a^b"]).out
        [strC "a^b"] := by
  decide

/-- C1 (amended): the written lines are exactly the sanitized forms of the
keep-eligible input lines, in input order, truncated by the limit — each
such line written exactly once, no reordering, no duplication — and the
written sequence is a sub-sequence of the sanitized input lines (rather
than of the raw input lines). -/
theorem c1_order_preservation (cfg : Config) (input : List (List Char)) :
    (filter_text_stream cfg input).out =
      takeLimit cfg.limit
        ((input.map (sanitize cfg.strip_caret)).filter (keepText cfg)) ∧
    List.Sublist (filter_text_stream cfg input).out
      (input.map (sanitize cfg.strip_caret)) := by
  have h1 : (filter_text_stream cfg input).out =
      takeLimitFrom cfg.limit 0
        ((input.map (sanitize cfg.strip_caret)).filter (keepText cfg)) :=
    filterLoop_out cfg input 0 0
  have heq : ∀ x : List (List Char),
      takeLimitFrom cfg.limit 0 x = takeLimit cfg.limit x := by
    intro x
    cases cfg.limit <;> simp [takeLimit, takeLimitFrom]
  constructor
  · rw [h1, heq]
  · rw [h1]
    exact (takeLimitFrom_sublist _ _ _).trans (List.filter_sublist _)

/-! ## C2: limit behaviour -/

/-- C2 (counterexample): with limit 1 and input a, b, c every line is
keep-eligible, the first write happens on the first pull, yet the loop
pulls a second line before breaking: the run performs two pulls, so input
reading does not stop before pulling another line after the final write. -/
theorem c2_extra_read_counterexample :
    (filter_text_stream (Config.mk [] (some 1) true) [['a'], ['b'], ['c']]).total = 1 ∧
    minPull (Config.mk [] (some 1) true) 1 [['a'], ['b'], ['c']] = 1 ∧
    pulls (Config.mk [] (some 1) true) [['a'], ['b'], ['c']] = 2 ∧
    ¬ pulls (Config.mk [] (some 1) true) [['a'], ['b'], ['c']] ≤
        minPull (Config.mk [] (some 1) true) 1 [['a'], ['b'], ['c']] := by
  decide

theorem filterLoop_limit_exact (cfg : Config) (N : Nat) :
    ∀ (input : List (List Char)) (t r : Nat), cfg.limit = some N → t ≤ N →
      N - t ≤ countKeep cfg input →
      (filterLoop cfg t r input).total = N ∧
      input.length - (filterLoop cfg t r input).rest.length =
        min (minPull cfg (N - t) input + 1) input.length := by
  intro input
  induction input with
  | nil =>
    intro t r hl ht hc
    have hc0 : countKeep cfg [] = 0 := by simp [countKeep]
    have htN : t = N := by omega
    constructor
    · simp [filterLoop, htN]
    · simp [filterLoop, minPull]
  | cons l ls ih =>
    intro t r hl ht hc
    cases hlim : limitHit cfg.limit t with
    | true =>
      rw [filterLoop_cons_break cfg t r l ls hlim]
      rw [hl] at hlim
      have hle : N ≤ t := limitHit_true_le hlim
      have hNt : N - t = 0 := by omega
      constructor
      · show t = N
        omega
      · show (l :: ls).length - ls.length = min (minPull cfg (N - t) (l :: ls) + 1) (l :: ls).length
        rw [hNt]
        simp [minPull]
    | false =>
      have hlim2 : limitHit (some N) t = false := by rw [← hl]; exact hlim
      have htn : t < N := limitHit_false_lt hlim2
      obtain ⟨m, hm⟩ : ∃ m, N - t = m + 1 := ⟨N - t - 1, by omega⟩
      cases hb : blank (sanitize cfg.strip_caret l) with
      | true =>
        have hkl : keepLine cfg l = false := by simp [keepLine, keepText, hb]
        rw [filterLoop_cons_blank cfg t r l ls hlim hb]
        have hc2 : N - t ≤ countKeep cfg ls := by
          have hcc : countKeep cfg (l :: ls) = countKeep cfg ls := by
            simp [countKeep, List.countP_cons, hkl]
          omega
        obtain ⟨ih1, ih2⟩ := ih t r hl ht hc2
        refine ⟨ih1, ?_⟩
        have hrle := filterLoop_rest_le cfg ls t r
        have hmp : minPull cfg (N - t) (l :: ls) = 1 + minPull cfg (N - t) ls := by
          rw [hm]
          simp [minPull, hkl]
        rw [hmp, hm] at *
        simp only [List.length_cons]
        omega
      | false =>
        cases hmb : matches_boilerplate (sanitize cfg.strip_caret l) cfg.patterns with
        | true =>
          have hkl : keepLine cfg l = false := by simp [keepLine, keepText, hb, hmb]
          rw [filterLoop_cons_drop cfg t r l ls hlim hb hmb]
          have hc2 : N - t ≤ countKeep cfg ls := by
            have hcc : countKeep cfg (l :: ls) = countKeep cfg ls := by
              simp [countKeep, List.countP_cons, hkl]
            omega
          obtain ⟨ih1, ih2⟩ := ih t (r + 1) hl ht hc2
          refine ⟨ih1, ?_⟩
          have hrle := filterLoop_rest_le cfg ls t (r + 1)
          have hmp : minPull cfg (N - t) (l :: ls) = 1 + minPull cfg (N - t) ls := by
            rw [hm]
            simp [minPull, hkl]
          rw [hmp, hm] at *
          simp only [List.length_cons]
          omega
        | false =>
          have hkl : keepLine cfg l = true := by simp [keepLine, keepText, hb, hmb]
          rw [filterLoop_cons_keep cfg t r l ls hlim hb hmb]
          have hc2 : N - (t + 1) ≤ countKeep cfg ls := by
            have hcc : countKeep cfg (l :: ls) = countKeep cfg ls + 1 := by
              simp [countKeep, List.countP_cons, hkl]
            omega
          obtain ⟨ih1, ih2⟩ := ih (t + 1) r hl (by omega) hc2
          constructor
          · show (filterLoop cfg (t + 1) r ls).total = N
            exact ih1
          · show (l :: ls).length - (filterLoop cfg (t + 1) r ls).rest.length =
              min (minPull cfg (N - t) (l :: ls) + 1) (l :: ls).length
            have hrle := filterLoop_rest_le cfg ls (t + 1) r
            have hmp : minPull cfg (N - t) (l :: ls) = 1 + minPull cfg (N - (t + 1)) ls := by
              rw [hm, show N - (t + 1) = m by omega]
              simp [minPull, hkl]
            rw [hmp]
            simp only [List.length_cons]
            omega

/-- C2 (amended): with limit N and at least N keep-eligible lines, exactly
N lines are written (the counter and the output both reach exactly N and
no further line is written); after the N-th write the loop pulls at most
one more line — the number of pulls is the position of the N-th write plus
one extra pull, capped by the input length — rather than stopping before
pulling another line. -/
theorem c2_limit_exactness (cfg : Config) (N : Nat) (input : List (List Char))
    (hl : cfg.limit = some N) (hc : N ≤ countKeep cfg input) :
    (filter_text_stream cfg input).total = N ∧
    (filter_text_stream cfg input).out.length = N ∧
    pulls cfg input = min (minPull cfg N input + 1) input.length := by
  obtain ⟨h1, h2⟩ := filterLoop_limit_exact cfg N input 0 0 hl (Nat.zero_le N)
    (by simpa using hc)
  have h3 := filterLoop_total cfg input 0 0
  refine ⟨h1, ?_, ?_⟩
  · show (filterLoop cfg 0 0 input).out.length = N
    omega
  · show input.length - (filterLoop cfg 0 0 input).rest.length =
      min (minPull cfg N input + 1) input.length
    simpa using h2

/-- Witness for C2 at a concrete run: limit 1, input lines a and b. -/
theorem c2_limit_exactness_witness :
    (filter_text_stream (Config.mk [] (some 1) true) [['a'], ['b']]).total = 1 ∧
    (filter_text_stream (Config.mk [] (some 1) true) [['a'], ['b']]).out.length = 1 ∧
    pulls (Config.mk [] (some 1) true) [['a'], ['b']] =
      min (minPull (Config.mk [] (some 1) true) 1 [['a'], ['b']] + 1)
        [['a'], ['b']].length :=
  c2_limit_exactness (Config.mk [] (some 1) true) 1 [['a'], ['b']] rfl (by decide)

/-! ## C3: lines that become empty after sanitization -/

theorem processedLines_nil (cfg : Config) (t : Nat) : processedLines cfg t [] = [] :=
  rfl

theorem processedLines_cons_break (cfg : Config) (t : Nat) (l : List Char)
    (ls : List (List Char)) (h : limitHit cfg.limit t = true) :
    processedLines cfg t (l :: ls) = [] := by
  simp [processedLines, h]

theorem processedLines_cons_blank (cfg : Config) (t : Nat) (l : List Char)
    (ls : List (List Char)) (h : limitHit cfg.limit t = false)
    (hb : blank (sanitize cfg.strip_caret l) = true) :
    processedLines cfg t (l :: ls) = l :: processedLines cfg t ls := by
  simp [processedLines, h, hb]

theorem processedLines_cons_drop (cfg : Config) (t : Nat) (l : List Char)
    (ls : List (List Char)) (h : limitHit cfg.limit t = false)
    (hb : blank (sanitize cfg.strip_caret l) = false)
    (hm : matches_boilerplate (sanitize cfg.strip_caret l) cfg.patterns = true) :
    processedLines cfg t (l :: ls) = l :: processedLines cfg t ls := by
  simp [processedLines, h, hb, hm]

theorem processedLines_cons_keep (cfg : Config) (t : Nat) (l : List Char)
    (ls : List (List Char)) (h : limitHit cfg.limit t = false)
    (hb : blank (sanitize cfg.strip_caret l) = false)
    (hm : matches_boilerplate (sanitize cfg.strip_caret l) cfg.patterns = false) :
    processedLines cfg t (l :: ls) = l :: processedLines cfg (t + 1) ls := by
  simp [processedLines, h, hb, hm]

theorem filterLoop_counts (cfg : Config) :
    ∀ (input : List (List Char)) (t r : Nat),
      (filterLoop cfg t r input).total + (filterLoop cfg t r input).removed +
          ((processedLines cfg t input).map (sanitize cfg.strip_caret)).countP blank =
        t + r + (processedLines cfg t input).length := by
  intro input
  induction input with
  | nil => intro t r; simp [filterLoop, processedLines]
  | cons l ls ih =>
    intro t r
    cases hlim : limitHit cfg.limit t with
    | true =>
      rw [filterLoop_cons_break cfg t r l ls hlim, processedLines_cons_break cfg t l ls hlim]
      simp
    | false =>
      cases hb : blank (sanitize cfg.strip_caret l) with
      | true =>
        rw [filterLoop_cons_blank cfg t r l ls hlim hb,
          processedLines_cons_blank cfg t l ls hlim hb]
        have hx := ih t r
        simp only [List.map_cons, List.countP_cons, hb, if_pos, List.length_cons]
        omega
      | false =>
        cases hmb : matches_boilerplate (sanitize cfg.strip_caret l) cfg.patterns with
        | true =>
          rw [filterLoop_cons_drop cfg t r l ls hlim hb hmb,
            processedLines_cons_drop cfg t l ls hlim hb hmb]
          have hx := ih t (r + 1)
          simp only [List.map_cons, List.countP_cons, hb, if_neg, List.length_cons,
            Bool.false_eq_true, not_false_iff]
          omega
        | false =>
          rw [filterLoop_cons_keep cfg t r l ls hlim hb hmb,
            processedLines_cons_keep cfg t l ls hlim hb hmb]
          have hx := ih (t + 1) r
          dsimp only
          simp only [List.map_cons, List.countP_cons, hb, if_neg, List.length_cons,
            Bool.false_eq_true, not_false_iff]
          omega

theorem processedLines_no_limit (cfg : Config) (h : cfg.limit = none) :
    ∀ (input : List (List Char)) (t : Nat), processedLines cfg t input = input := by
  intro input
  induction input with
  | nil => intro t; rfl
  | cons l ls ih =>
    intro t
    have hlim : limitHit cfg.limit t = false := by rw [h]; rfl
    cases hb : blank (sanitize cfg.strip_caret l) with
    | true => rw [processedLines_cons_blank cfg t l ls hlim hb, ih t]
    | false =>
      cases hmb : matches_boilerplate (sanitize cfg.strip_caret l) cfg.patterns with
      | true => rw [processedLines_cons_drop cfg t l ls hlim hb hmb, ih t]
      | false => rw [processedLines_cons_keep cfg t l ls hlim hb hmb, ih (t + 1)]

/-- C3: a line whose sanitized form consists only of whitespace is skipped
silently — the run continues exactly as if the line were absent, so it is
not written and increments neither counter; consequently, over one run,
written plus removed plus the number of processed lines that became blank
after sanitization equals the number of processed lines, and in an
unlimited run written plus removed equals the input length minus the
number of lines blank after sanitization. -/
theorem c3_empty_after_sanitization :
    (∀ (cfg : Config) (t r : Nat) (line : List Char) (rest : List (List Char)),
        (∀ c ∈ sanitize cfg.strip_caret line, isPySpace c = true) →
        limitHit cfg.limit t = false →
        filterLoop cfg t r (line :: rest) = filterLoop cfg t r rest) ∧
    (∀ (cfg : Config) (input : List (List Char)),
        (filter_text_stream cfg input).total + (filter_text_stream cfg input).removed +
            ((processedLines cfg 0 input).map (sanitize cfg.strip_caret)).countP blank =
          (processedLines cfg 0 input).length) ∧
    (∀ (cfg : Config) (input : List (List Char)), cfg.limit = none →
        (filter_text_stream cfg input).total + (filter_text_stream cfg input).removed =
          input.length - (input.map (sanitize cfg.strip_caret)).countP blank) := by
  refine ⟨?_, ?_, ?_⟩
  · intro cfg t r line rest hws hlim
    exact filterLoop_cons_blank cfg t r line rest hlim ((blank_iff _).mpr hws)
  · intro cfg input
    have hx := filterLoop_counts cfg input 0 0
    simpa using hx
  · intro cfg input h
    have h1 := filterLoop_counts cfg input 0 0
    rw [processedLines_no_limit cfg h input 0] at h1
    have h2 : (input.map (sanitize cfg.strip_caret)).countP blank ≤ input.length := by
      have h3 := @List.countP_le_length (List Char) blank (input.map (sanitize cfg.strip_caret))
      rwa [List.length_map] at h3
    show (filterLoop cfg 0 0 input).total + (filterLoop cfg 0 0 input).removed =
      input.length - (input.map (sanitize cfg.strip_caret)).countP blank
    omega

/-- Witness for C3 at a concrete step: a line of three carets sanitizes to
the empty text and the run continues as if it were absent. -/
theorem c3_empty_after_sanitization_witness :
    filterLoop (Config.mk [] none true) 0 0 [['^', '^', '^'], ['a']] =
      filterLoop (Config.mk [] none true) 0 0 [['a']] :=
  c3_empty_after_sanitization.1 (Config.mk [] none true) 0 0 ['^', '^', '^'] [['a']]
    (by decide) (by decide)

/-! ## C4: literal prefix semantics -/

/-- C4: the classifier drops a sanitized line iff some pattern of the set
is an exact, case-sensitive, literal character-sequence prefix of the line
starting at position 0; in particular the pattern DOI colon does not drop
the line starting with xDOI but does drop the line starting with DOI, and
a pattern occurring only as an interior substring never causes a drop. -/
theorem c4_prefix_only_matching :
    (∀ (text : List Char) (patterns : List (List Char)),
        matches_boilerplate text patterns = true ↔
          ∃ p ∈ patterns, ∃ t, p ++ t = text) ∧
    matches_boilerplate (strC "xDOI: foo") [strC "DOI:"] = false ∧
    matches_boilerplate (strC "DOI: foo") [strC "DOI:"] = true := by
  refine ⟨?_, by decide, by decide⟩
  intro text patterns
  simp only [matches_iff, startswith_iff]

/-! ## C5: caret stripping -/

/-- C5: with caret stripping enabled, sanitization deletes every
occurrence of the caret anywhere in the line (a global character deletion
over the terminator-normalized line), so a^b^c sanitizes to abc; with
stripping disabled a line containing no terminator characters is left
verbatim, so a^b^c stays a^b^c. -/
theorem c5_caret_stripping :
    (∀ line : List Char,
        sanitize true line = (rstripCRLF line).filter (fun c => c != '^')) ∧
    (∀ line : List Char, (∀ c ∈ line, (c == '\r' || c == '\n') = false) →
        sanitize false line = line) ∧
    sanitize true (strC "a^b^c") = strC "abc" ∧
    sanitize false (strC "a^b^c") = strC "a^b^c" := by
  refine ⟨sanitize_true_eq, ?_, by decide, by decide⟩
  intro line h
  rw [sanitize_false_eq]
  unfold rstripCRLF
  have hd : line.reverse.dropWhile (fun c => c == '\r' || c == '\n') = line.reverse := by
    cases hrev : line.reverse with
    | nil => rfl
    | cons a as =>
      rw [List.dropWhile_cons]
      have ha : (a == '\r' || a == '\n') = false := by
        apply h
        rw [← List.mem_reverse, hrev]
        exact List.mem_cons_self a as
      simp [ha]
  rw [hd, List.reverse_reverse]

/-- Witness for C5 at a concrete line without terminator characters. -/
theorem c5_caret_stripping_witness :
    sanitize false (strC "xy") = strC "xy" :=
  c5_caret_stripping.2.1 (strC "xy") (by decide)

/-! ## C6: same-file guard -/

/-- C6: when the input and output paths resolve to the same filesystem
object, the run of main ends in a PathError; the outcome is the same for
every possible file content (so no bytes are read and nothing is written
before the error), and when the input exists the error is precisely the
same-file diagnostic, raised before the filtering engine runs. -/
theorem c6_same_file_guard (ex : String → Bool) (res : String → String)
    (rd rd2 : String → List (List Char)) (inp outp : String) (cfg : Config)
    (h : res inp = res outp) :
    (∃ e : MainError, runMain ⟨ex, res, rd⟩ inp outp cfg = Except.error e) ∧
    runMain ⟨ex, res, rd⟩ inp outp cfg = runMain ⟨ex, res, rd2⟩ inp outp cfg ∧
    (ex inp = true →
      runMain ⟨ex, res, rd⟩ inp outp cfg = Except.error MainError.sameFile) := by
  cases hex : ex inp with
  | false =>
    refine ⟨⟨MainError.inputMissing, ?_⟩, ?_, ?_⟩
    · simp [runMain, hex]
    · simp [runMain, hex]
    · intro hx
      cases hx
  | true =>
    refine ⟨⟨MainError.sameFile, ?_⟩, ?_, ?_⟩
    · simp [runMain, hex, h]
    · simp [runMain, hex, h]
    · intro hx
      simp [runMain, hex, h]

/-- Witness for C6 at a concrete filesystem whose two paths resolve
identically. -/
theorem c6_same_file_guard_witness :
    (∃ e : MainError,
        runMain ⟨fun _ => true, fun _ => "r", fun _ => []⟩ "i" "o"
          (Config.mk [] none true) = Except.error e) ∧
    runMain ⟨fun _ => true, fun _ => "r", fun _ => []⟩ "i" "o"
        (Config.mk [] none true) =
      runMain ⟨fun _ => true, fun _ => "r", fun _ => [['a']]⟩ "i" "o"
        (Config.mk [] none true) ∧
    ((fun _ : String => true) "i" = true →
      runMain ⟨fun _ => true, fun _ => "r", fun _ => []⟩ "i" "o"
          (Config.mk [] none true) = Except.error MainError.sameFile) :=
  c6_same_file_guard (fun _ => true) (fun _ => "r") (fun _ => []) (fun _ => [['a']])
    "i" "o" (Config.mk [] none true) rfl

/-! ## C8: pattern order independence -/

/-- C8: the keep/drop outcome of classification does not depend on the
order of the patterns: any permutation of the same pattern set yields the
same decision on every sanitized line. -/
theorem c8_pattern_order_independent (text : List Char) (ps qs : List (List Char))
    (h : List.Perm ps qs) :
    matches_boilerplate text ps = matches_boilerplate text qs := by
  apply Bool.eq_iff_iff.mpr
  rw [matches_iff, matches_iff]
  constructor
  · rintro ⟨p, hp, hs⟩
    exact ⟨p, h.mem_iff.mp hp, hs⟩
  · rintro ⟨p, hp, hs⟩
    exact ⟨p, h.mem_iff.mpr hp, hs⟩

/-- Witness for C8 at a concrete two-pattern set and its swap. -/
theorem c8_pattern_order_independent_witness :
    matches_boilerplate (strC "ba") [strC "a", strC "b"] =
      matches_boilerplate (strC "ba") [strC "b", strC "a"] :=
  c8_pattern_order_independent (strC "ba") [strC "a", strC "b"]
    [strC "b", strC "a"] (by decide)

/-! ## C9: invariants of the written lines -/

/-- C9: every written line is non-empty even after trimming whitespace;
when caret stripping is enabled no written line contains a caret anywhere;
and what is written is the sanitized text of some input line, not the raw
line. -/
theorem c9_output_invariant (cfg : Config) (input : List (List Char)) (l : List Char)
    (h : l ∈ (filter_text_stream cfg input).out) :
    blank l = false ∧
    (cfg.strip_caret = true → l.contains '^' = false) ∧
    ∃ raw ∈ input, l = sanitize cfg.strip_caret raw := by
  obtain ⟨⟨raw, hraw, hsan⟩, hb, hm⟩ := out_mem cfg input l h
  refine ⟨hb, ?_, raw, hraw, hsan⟩
  intro hsc
  rw [hsc] at hsan
  have hnc : ('^' : Char) ∉ l := by
    rw [hsan]
    exact sanitize_no_caret raw
  cases hc : l.contains '^' with
  | true => exact absurd ((contains_iff _ _).mp hc) hnc
  | false => rfl

/-- Witness for C9 at a concrete run writing one line. -/
theorem c9_output_invariant_witness :
    blank (strC "ab") = false ∧
    ((Config.mk [] none true).strip_caret = true → (strC "ab").contains '^' = false) ∧
    ∃ raw ∈ [strC "a^b"], strC "ab" = sanitize (Config.mk [] none true).strip_caret raw :=
  c9_output_invariant (Config.mk [] none true) [strC "a^b"] (strC "ab") (by decide)

/-! ## C7: idempotence of re-filtering -/

theorem rstrip_append_newline (l : List Char) :
    rstripCRLF (l ++ ['\n']) = rstripCRLF l := by
  unfold rstripCRLF
  rw [List.reverse_append]
  simp [List.dropWhile_cons]

theorem matches_rstrip_imp (text : List Char) (ps : List (List Char))
    (h : matches_boilerplate (rstripCRLF text) ps = true) :
    matches_boilerplate text ps = true := by
  rw [matches_iff] at h ⊢
  obtain ⟨p, hp, hs⟩ := h
  obtain ⟨u, hu⟩ := (startswith_iff _ p).mp hs
  obtain ⟨t, ht, -⟩ := rstripCRLF_decomp text
  refine ⟨p, hp, (startswith_iff _ p).mpr ⟨u ++ t, ?_⟩⟩
  rw [← List.append_assoc, hu, ht]

theorem blank_rstrip_imp (l : List Char) (h : blank (rstripCRLF l) = true) :
    blank l = true := by
  rw [blank_iff] at h ⊢
  obtain ⟨t, ht, htc⟩ := rstripCRLF_decomp l
  intro c hc
  rw [← ht] at hc
  rcases List.mem_append.mp hc with h1 | h2
  · exact h c h1
  · have h3 : c = '\r' ∨ c = '\n' := by simpa using htc c h2
    rcases h3 with rfl | rfl <;> decide

theorem sanitize_out_line (cfg : Config) (l : List Char)
    (hnc : cfg.strip_caret = true → ('^' : Char) ∉ l) :
    sanitize cfg.strip_caret (l ++ ['\n']) = rstripCRLF l := by
  cases hsc : cfg.strip_caret with
  | false => rw [sanitize_false_eq, rstrip_append_newline]
  | true =>
    have hmem : ('^' : Char) ∉ l := hnc hsc
    rw [sanitize_true_eq, rstrip_append_newline]
    apply List.filter_eq_self.mpr
    intro a ha
    have hne : a ≠ '^' := fun he => hmem (he ▸ mem_rstripCRLF ha)
    simpa using hne

theorem filterLoop_removed_of_no_match (cfg : Config) :
    ∀ (input : List (List Char)) (t r : Nat),
      (∀ x ∈ input,
        matches_boilerplate (sanitize cfg.strip_caret x) cfg.patterns = false) →
      (filterLoop cfg t r input).removed = r := by
  intro input
  induction input with
  | nil => intro t r h; rfl
  | cons l ls ih =>
    intro t r h
    cases hlim : limitHit cfg.limit t with
    | true =>
      rw [filterLoop_cons_break cfg t r l ls hlim]
    | false =>
      have hml := h l (List.mem_cons_self l ls)
      cases hb : blank (sanitize cfg.strip_caret l) with
      | true =>
        rw [filterLoop_cons_blank cfg t r l ls hlim hb]
        exact ih t r (fun x hx => h x (List.mem_cons_of_mem l hx))
      | false =>
        rw [filterLoop_cons_keep cfg t r l ls hlim hb hml]
        show (filterLoop cfg (t + 1) r ls).removed = r
        exact ih (t + 1) r (fun x hx => h x (List.mem_cons_of_mem l hx))

/-- C7: re-filtering an already-filtered corpus — the written lines read
back from the output file, each followed by the newline the writer
appended — with the same patterns and configuration removes nothing: no
pattern matches any surviving line and no surviving line becomes empty
under a second sanitization, so the second run reports removed equal to
zero. -/
theorem c7_refilter_idempotent (cfg : Config) (input : List (List Char)) :
    (filter_text_stream cfg
        ((filter_text_stream cfg input).out.map (fun l => l ++ ['\n']))).removed = 0 ∧
    ∀ l ∈ (filter_text_stream cfg input).out,
      blank (sanitize cfg.strip_caret (l ++ ['\n'])) = false ∧
      matches_boilerplate (sanitize cfg.strip_caret (l ++ ['\n'])) cfg.patterns = false := by
  have key : ∀ l ∈ (filter_text_stream cfg input).out,
      blank (sanitize cfg.strip_caret (l ++ ['\n'])) = false ∧
      matches_boilerplate (sanitize cfg.strip_caret (l ++ ['\n'])) cfg.patterns = false := by
    intro l hl
    obtain ⟨⟨raw, hraw, hsan⟩, hb, hm⟩ := out_mem cfg input l hl
    have hnc : cfg.strip_caret = true → ('^' : Char) ∉ l := by
      intro hsc
      rw [hsc] at hsan
      rw [hsan]
      exact sanitize_no_caret raw
    rw [sanitize_out_line cfg l hnc]
    constructor
    · cases hbr : blank (rstripCRLF l) with
      | true => exact absurd (blank_rstrip_imp l hbr) (by simp [hb])
      | false => rfl
    · cases hmr : matches_boilerplate (rstripCRLF l) cfg.patterns with
      | true => exact absurd (matches_rstrip_imp l cfg.patterns hmr) (by simp [hm])
      | false => rfl
  refine ⟨?_, key⟩
  apply filterLoop_removed_of_no_match
  intro x hx
  obtain ⟨l, hl, rfl⟩ := List.mem_map.mp hx
  exact (key l hl).2

/-- Witness for C7 at a concrete run-then-refilter. -/
theorem c7_refilter_idempotent_witness :
    (filter_text_stream (Config.mk [] none true)
        ((filter_text_stream (Config.mk [] none true) [strC "a^b"]).out.map
          (fun l => l ++ ['\n']))).removed = 0 ∧
    blank (sanitize (Config.mk [] none true).strip_caret (strC "ab" ++ ['\n'])) = false ∧
    matches_boilerplate
        (sanitize (Config.mk [] none true).strip_caret (strC "ab" ++ ['\n']))
        (Config.mk [] none true).patterns = false :=
  ⟨(c7_refilter_idempotent (Config.mk [] none true) [strC "a^b"]).1,
   (c7_refilter_idempotent (Config.mk [] none true) [strC "a^b"]).2 (strC "ab") (by decide)⟩

/-! ## C10: pattern loading normalization -/

theorem load_patterns_cons_keep (line : List Char) (rest : List (List Char))
    (h1 : (pyStrip line).isEmpty = false)
    (h2 : startswith (pyStrip line) ['#'] = false) :
    load_patterns (line :: rest) = pyStrip line :: load_patterns rest := by
  simp [load_patterns, h1, h2]

theorem load_patterns_cons_empty (line : List Char) (rest : List (List Char))
    (h1 : (pyStrip line).isEmpty = true) :
    load_patterns (line :: rest) = load_patterns rest := by
  simp [load_patterns, h1]

theorem load_patterns_cons_comment (line : List Char) (rest : List (List Char))
    (h2 : startswith (pyStrip line) ['#'] = true) :
    load_patterns (line :: rest) = load_patterns rest := by
  simp [load_patterns, h2]

theorem load_patterns_mem :
    ∀ (lines : List (List Char)) (p : List Char), p ∈ load_patterns lines →
      (∃ src ∈ lines, p = pyStrip src) ∧ p ≠ [] := by
  intro lines
  induction lines with
  | nil =>
    intro p hp
    simp [load_patterns] at hp
  | cons line rest ih =>
    intro p hp
    cases he : (pyStrip line).isEmpty with
    | true =>
      rw [load_patterns_cons_empty line rest he] at hp
      obtain ⟨⟨src, hs, hps⟩, hne⟩ := ih p hp
      exact ⟨⟨src, List.mem_cons_of_mem line hs, hps⟩, hne⟩
    | false =>
      cases hsw : startswith (pyStrip line) ['#'] with
      | true =>
        rw [load_patterns_cons_comment line rest hsw] at hp
        obtain ⟨⟨src, hs, hps⟩, hne⟩ := ih p hp
        exact ⟨⟨src, List.mem_cons_of_mem line hs, hps⟩, hne⟩
      | false =>
        rw [load_patterns_cons_keep line rest he hsw] at hp
        rcases List.mem_cons.mp hp with rfl | hp2
        · refine ⟨⟨line, List.mem_cons_self line rest, rfl⟩, ?_⟩
          intro hnil
          rw [hnil] at he
          simp at he
        · obtain ⟨⟨src, hs, hps⟩, hne⟩ := ih p hp2
          exact ⟨⟨src, List.mem_cons_of_mem line hs, hps⟩, hne⟩

theorem dropWhile_head_not (p : Char → Bool) (l : List Char) (c : Char)
    (h : (l.dropWhile p).head? = some c) : p c = false := by
  have hx := List.head?_dropWhile_not p l
  rw [h] at hx
  exact hx

theorem dropWhile_getLast (p : Char → Bool) :
    ∀ (l : List Char), l.dropWhile p ≠ [] →
      (l.dropWhile p).getLast? = l.getLast? := by
  intro l
  induction l with
  | nil =>
    intro h
    exact absurd rfl h
  | cons a as ih =>
    intro h
    rw [List.dropWhile_cons] at h ⊢
    by_cases hp : p a = true
    · rw [if_pos hp] at h ⊢
      have has : as ≠ [] := by
        intro he
        rw [he] at h
        exact h rfl
      rw [ih h]
      cases as with
      | nil => exact absurd rfl has
      | cons b bs => exact List.getLast?_cons_cons.symm
    · rw [if_neg hp]

theorem pyStrip_head_not_space (l : List Char) (c : Char)
    (h : (pyStrip l).head? = some c) : isPySpace c = false := by
  unfold pyStrip at h
  exact dropWhile_head_not isPySpace _ c h

theorem pyStrip_getLast_not_space (l : List Char) (c : Char)
    (h : (pyStrip l).getLast? = some c) : isPySpace c = false := by
  unfold pyStrip at h
  have hne : ((l.reverse.dropWhile isPySpace).reverse).dropWhile isPySpace ≠ [] := by
    intro he
    rw [he] at h
    simp at h
  rw [dropWhile_getLast isPySpace _ hne, List.getLast?_reverse] at h
  exact dropWhile_head_not isPySpace _ c h

/-- C10: every pattern produced by load_patterns is the whitespace-trimmed
text of some source line (the trimmed text is stored, not the original
line), so no loaded pattern is empty or begins or ends with whitespace;
and a source line whose first non-whitespace character is the comment
marker contributes no pattern, even when the marker is preceded by
whitespace. -/
theorem c10_pattern_loading :
    (∀ (lines : List (List Char)) (p : List Char), p ∈ load_patterns lines →
        (∃ src ∈ lines, p = pyStrip src) ∧ p ≠ [] ∧
        (∀ c, p.head? = some c → isPySpace c = false) ∧
        (∀ c, p.getLast? = some c → isPySpace c = false)) ∧
    (∀ (line : List Char) (rest : List (List Char)),
        (pyStrip line).head? = some '#' →
        load_patterns (line :: rest) = load_patterns rest) := by
  constructor
  · intro lines p hp
    obtain ⟨⟨src, hsrc, hps⟩, hne⟩ := load_patterns_mem lines p hp
    refine ⟨⟨src, hsrc, hps⟩, hne, ?_, ?_⟩
    · intro c hc
      rw [hps] at hc
      exact pyStrip_head_not_space src c hc
    · intro c hc
      rw [hps] at hc
      exact pyStrip_getLast_not_space src c hc
  · intro line rest hh
    obtain ⟨t, ht⟩ : ∃ t, pyStrip line = '#' :: t := by
      cases hps : pyStrip line with
      | nil =>
        rw [hps] at hh
        simp at hh
      | cons a as =>
        rw [hps] at hh
        simp only [List.head?_cons, Option.some.injEq] at hh
        exact ⟨as, by rw [hh]⟩
    apply load_patterns_cons_comment
    rw [ht]
    simp [startswith]

/-- Witness for C10 at a concrete comment line preceded by whitespace. -/
theorem c10_pattern_loading_witness :
    load_patterns [strC "  # note", strC "p"] = load_patterns [strC "p"] :=
  c10_pattern_loading.2 (strC "  # note") [strC "p"] (by decide)

end CorpusFilter
